import Mathlib

/-!
Verification of the playslave++ / playd playback core.

This file gives a shallow embedding, in Lean, of the parts of the source
relevant to the frozen claims:

* `src/src/audio/audio.cpp` — the `PipeAudio` update/seek/throttle cycle and
  the `NoAudio` (null) variant.  Byte buffers become `List Nat`; the
  `frame_iterator` (a `std::vector` iterator) becomes a `Nat` index measured
  from `frame.begin()`.  The abstract `AudioSource::Decode` result and the
  amount of data the sink accepts in one `Transfer` call are supplied as
  explicit oracle inputs, so theorems quantify over every possible source
  and sink behaviour.
* `src/src/response.h` / spec §4.6 — response packing and escaping.
* spec §4.7 — the tokeniser state machine.
* `src/ringbuffer.hpp` / spec §4.1 — the ring buffer wrapper.

Where an implementation file of the repository is not available under `src/`
(e.g. `response.cpp`, `tokeniser.cpp`, `contrib/pa_ringbuffer.c`), the
definition is modelled from the words of the specification and marked as such in
its doc comment.
-/

namespace Playd

/-- Transport states of a sink / audio item
(`Audio::State` in `audio.cpp`; spec §3: {STOPPED, PLAYING, AT_END},
plus the `NONE` state reported by `NoAudio`). -/
inductive AudioState
  | NONE
  | STOPPED
  | PLAYING
  | AT_END
deriving DecidableEq, Repr

/-- Decoder states (`AudioSource::DecodeState`, spec §4.2). -/
inductive DecodeState
  | DECODING
  | END_OF_FILE
deriving DecidableEq, Repr

/-- `AudioSource::DecodeResult = std::pair<DecodeState, DecodeVector>`:
the decoder state together with the decoded bytes. -/
abbrev DecodeResult := DecodeState × List Nat

/-- The observable state of an `AudioSink` as used by `PipeAudio`
(`audio_sink.hpp`, spec §4.3): the transport state, the position counter in
samples, and the flag set by `SourceOut()`. -/
structure Sink where
  state : AudioState
  position : Nat
  source_out : Bool
deriving DecidableEq, Repr

/-- `AudioSink::SourceOut()`: marks the upstream as exhausted (idempotent;
the STOPPED→AT_END transition itself happens on the callback thread and is
outside this model). -/
def Sink.SourceOut (s : Sink) : Sink :=
  { s with source_out := true }

/-- `AudioSink::SetPosition(samples)`: forcibly sets the position counter
(spec §4.3; the PCM flush is not observable in this model). -/
def Sink.SetPosition (s : Sink) (samples : Nat) : Sink :=
  { s with position := samples }

/-- `AudioSink::State()`. -/
def Sink.State (s : Sink) : AudioState := s.state

/-- The `PipeAudio` fields touched by the claims (`audio.cpp`):
the current decoded frame, the read cursor into it (`frame_iterator`,
as an index from `frame.begin()`), and the broadcast-throttle fields. -/
structure PipeAudio where
  frame : List Nat
  frame_iterator : Nat
  announced_time : Bool
  last_time : Nat
deriving DecidableEq, Repr

/-- `PipeAudio::ClearFrame()` (audio.cpp:148-152): empties the frame and
resets the iterator to `frame.end()` — for an empty frame, index 0. -/
def PipeAudio.ClearFrame (a : PipeAudio) : PipeAudio :=
  { a with frame := [], frame_iterator := 0 }

/-- The fields established by the `PipeAudio` constructor (audio.cpp:75-80):
`announced_time` is false and the frame is cleared.  `last_time` is left
uninitialised by the constructor, so it is a parameter here. -/
def PipeAudio.init (lt : Nat) : PipeAudio :=
  ⟨[], 0, false, lt⟩

/-- `PipeAudio::FrameFinished()` (audio.cpp:208-211):
`frame.end() <= frame_iterator`. -/
def PipeAudio.FrameFinished (a : PipeAudio) : Bool :=
  a.frame.length ≤ a.frame_iterator

/-- `PipeAudio::DecodeIfFrameEmpty()` (audio.cpp:189-206), with the result of
`src->Decode()` passed as the oracle `res`.  Returns the `more_available`
flag together with the updated audio state. -/
def PipeAudio.DecodeIfFrameEmpty (a : PipeAudio) (res : DecodeResult) :
    Bool × PipeAudio :=
  if ¬ a.FrameFinished then (true, a)
  else (res.1 ≠ DecodeState.END_OF_FILE,
        { a with frame := res.2, frame_iterator := 0 })

/-- `PipeAudio::TransferFrame()` (audio.cpp:167-187).  The sink operation
`Transfer(frame_iterator, frame.end())` advances the iterator by however
many elements the sink accepted — at most the requested range — so the
accepted amount is the oracle `accept`, clamped to the range length.
Afterwards, a finished frame is cleared. -/
def PipeAudio.TransferFrame (a : PipeAudio) (accept : Nat) : PipeAudio :=
  let advanced := min accept (a.frame.length - a.frame_iterator)
  let a' := { a with frame_iterator := a.frame_iterator + advanced }
  if a'.FrameFinished then a'.ClearFrame else a'

/-- The oracle inputs consumed by one `PipeAudio::Update()` call: the decode
result used if a decode happens, and the amount the sink accepts if a
transfer happens. -/
structure UpdateOracle where
  res : DecodeResult
  accept : Nat

/-- `PipeAudio::Update()` (audio.cpp:154-165): decode if the frame is
finished, signal `SourceOut` when no more data is available, transfer if the
frame is unfinished, and return `sink->State()`. -/
def PipeAudio.Update (a : PipeAudio) (s : Sink) (o : UpdateOracle) :
    PipeAudio × Sink × AudioState :=
  let dr := a.DecodeIfFrameEmpty o.res
  let s1 := if dr.1 then s else s.SourceOut
  let a1 := dr.2
  let a2 := if ¬ a1.FrameFinished then a1.TransferFrame o.accept else a1
  (a2, s1, s1.State)

/-- The update cycle as worded by spec §4.4, for comparison with
`PipeAudio.Update`:
1. if the current frame is finished (empty or fully transferred), decode,
   replace the frame, and call `sink.source_out()` exactly when the decode
   returned `END_OF_FILE`;
2. if the frame is non-empty, transfer from the cursor towards the end,
   clearing the frame when the cursor reaches the end;
3. return `sink.state()`. -/
def PipeAudio.UpdateSpec (a : PipeAudio) (s : Sink) (o : UpdateOracle) :
    PipeAudio × Sink × AudioState :=
  let step1 :=
    if a.frame = [] ∨ a.frame.length ≤ a.frame_iterator then
      ({ a with frame := o.res.2, frame_iterator := 0 },
       if o.res.1 = DecodeState.END_OF_FILE then s.SourceOut else s)
    else (a, s)
  let a1 := step1.1
  let s1 := step1.2
  let a2 := if a1.frame ≠ [] then a1.TransferFrame o.accept else a1
  (a2, s1, s1.State)

/-- `PipeAudio::Seek(position)` (audio.cpp:131-146), with the source conversion
`SamplesFromMicros` and `Seek` repositioning passed as the
oracles `sfm` and `seekFn`. -/
def PipeAudio.Seek (a : PipeAudio) (s : Sink) (sfm seekFn : Nat → Nat)
    (position : Nat) : PipeAudio × Sink :=
  let in_samples := sfm position
  let out_samples := seekFn in_samples
  let s' := s.SetPosition out_samples
  let a' := { a with announced_time := false }
  (a'.ClearFrame, s')

/-- `PipeAudio::CanAnnounceTime(micros)` (audio.cpp:213-227). -/
def PipeAudio.CanAnnounceTime (a : PipeAudio) (micros : Nat) :
    Bool × PipeAudio :=
  let secs := micros / 1000 / 1000
  let announce := (! a.announced_time) || decide (a.last_time < secs)
  if announce then
    (true, { a with announced_time := true, last_time := secs })
  else (false, a)

/-- A single operation on a `PipeAudio`, for reasoning about arbitrary
operation sequences: an `Update()` tick (with its oracle and the sink it
runs against) or a `Seek()` (with its conversion oracles, target and sink). -/
inductive PipeOp
  | upd (o : UpdateOracle) (s : Sink)
  | seekTo (sfm seekFn : Nat → Nat) (position : Nat) (s : Sink)

/-- Applies one operation to a `PipeAudio`, keeping the audio component. -/
def PipeAudio.applyOp (a : PipeAudio) : PipeOp → PipeAudio
  | PipeOp.upd o s => (a.Update s o).1
  | PipeOp.seekTo sfm seekFn position s => (a.Seek s sfm seekFn position).1

/-- Runs a sequence of operations from a given `PipeAudio` state. -/
def PipeAudio.run (a : PipeAudio) (ops : List PipeOp) : PipeAudio :=
  ops.foldl PipeAudio.applyOp a

section AudioTheorems

/-- After `TransferFrame`, either the frame is empty or the iterator is
strictly inside it (the assertion at audio.cpp:184-186). -/
theorem transferFrame_invariant (a : PipeAudio) (accept : Nat) :
    (a.TransferFrame accept).frame = [] ∨
      (a.TransferFrame accept).frame_iterator <
        (a.TransferFrame accept).frame.length := by
  unfold PipeAudio.TransferFrame PipeAudio.ClearFrame
  by_cases h : a.frame.length ≤
      a.frame_iterator + min accept (a.frame.length - a.frame_iterator)
  · left
    simp [PipeAudio.FrameFinished, h]
  · right
    simp only [PipeAudio.FrameFinished, decide_eq_true_eq, h, if_neg,
      if_false, Bool.false_eq_true]
    omega

/-- The audio-state component of `DecodeIfFrameEmpty`: the frame is replaced
(and the iterator reset) exactly when the current frame was finished. -/
theorem decodeIfFrameEmpty_snd (a : PipeAudio) (res : DecodeResult) :
    (a.DecodeIfFrameEmpty res).2 =
      if a.frame.length ≤ a.frame_iterator
      then { a with frame := res.2, frame_iterator := 0 } else a := by
  unfold PipeAudio.DecodeIfFrameEmpty PipeAudio.FrameFinished
  by_cases h : a.frame.length ≤ a.frame_iterator <;> simp [h]

/-- C1: one `PipeAudio::Update()` call performs exactly the cycle described
by spec §4.4 — decode and replace the frame when the current one is finished
(signalling `SourceOut` exactly on `END_OF_FILE`), then transfer when the
frame is non-empty (clearing it when the cursor reaches the end), and return
the state of the sink. -/
theorem pipeAudio_update_is_spec_cycle (a : PipeAudio) (s : Sink)
    (o : UpdateOracle) : a.Update s o = a.UpdateSpec s o := by
  unfold PipeAudio.Update PipeAudio.UpdateSpec PipeAudio.DecodeIfFrameEmpty
  by_cases hf : a.frame.length ≤ a.frame_iterator
  · have h2 : a.frame = [] ∨ a.frame.length ≤ a.frame_iterator := Or.inr hf
    cases hres : o.res.1 <;>
      cases hbytes : o.res.2 <;>
        simp [PipeAudio.FrameFinished, hf, h2, hres, hbytes]
  · have h3 : a.frame ≠ [] := by
      intro h
      rw [h] at hf
      simp at hf
    simp [PipeAudio.FrameFinished, hf, h3]

/-- C3: after every complete `Update()` call, either the decoded frame is
empty or the read cursor lies strictly between the beginning and the
end of the frame. -/
theorem pipeAudio_update_invariant (a : PipeAudio) (s : Sink)
    (o : UpdateOracle) :
    (a.Update s o).1.frame = [] ∨
      (a.Update s o).1.frame_iterator < (a.Update s o).1.frame.length := by
  have hu : (a.Update s o).1 =
      if ¬ (a.DecodeIfFrameEmpty o.res).2.FrameFinished
      then (a.DecodeIfFrameEmpty o.res).2.TransferFrame o.accept
      else (a.DecodeIfFrameEmpty o.res).2 := rfl
  rw [hu]
  by_cases hfin : (a.DecodeIfFrameEmpty o.res).2.FrameFinished = true
  · rw [if_neg (by simp [hfin])]
    left
    rw [decodeIfFrameEmpty_snd] at hfin ⊢
    by_cases hf : a.frame.length ≤ a.frame_iterator
    · rw [if_pos hf] at hfin ⊢
      simp only [PipeAudio.FrameFinished, decide_eq_true_eq] at hfin
      have hlen : o.res.2.length = 0 := Nat.le_zero.mp (by simpa using hfin)
      simpa using List.eq_nil_of_length_eq_zero hlen
    · rw [if_neg hf] at hfin
      simp only [PipeAudio.FrameFinished, decide_eq_true_eq] at hfin
      exact absurd hfin hf
  · rw [if_pos (by simp [hfin])]
    exact transferFrame_invariant _ o.accept

/-- C2: `CanAnnounceTime(µs)` is truthy iff no announcement has occurred
since the last reset or `⌊µs / 1 000 000⌋` strictly exceeds the last
announced whole-second; exactly on a truthy result it records that floor as
the last announced whole-second and marks an announcement as occurred. -/
theorem canAnnounceTime_characterisation (a : PipeAudio) (micros : Nat) :
    ((a.CanAnnounceTime micros).1 = true ↔
      (a.announced_time = false ∨ a.last_time < micros / 1000000)) ∧
    ((a.CanAnnounceTime micros).1 = true →
      (a.CanAnnounceTime micros).2 =
        { a with announced_time := true, last_time := micros / 1000000 }) ∧
    ((a.CanAnnounceTime micros).1 = false →
      (a.CanAnnounceTime micros).2 = a) := by
  have hdiv : micros / 1000 / 1000 = micros / 1000000 := by
    rw [Nat.div_div_eq_div_mul]
  by_cases hb : ((! a.announced_time) ||
      decide (a.last_time < micros / 1000 / 1000)) = true
  · have hb' : a.announced_time = false ∨ a.last_time < micros / 1000000 := by
      rw [Bool.or_eq_true, Bool.not_eq_true', decide_eq_true_eq, hdiv] at hb
      exact hb
    have hres : a.CanAnnounceTime micros =
        (true, { a with announced_time := true,
                        last_time := micros / 1000000 }) := by
      simp [PipeAudio.CanAnnounceTime, hdiv, hb']
    rw [hres]
    exact ⟨⟨fun _ => hb', fun _ => rfl⟩, fun _ => rfl,
           fun hc => Bool.noConfusion hc⟩
  · have hbf : ((! a.announced_time) ||
        decide (a.last_time < micros / 1000 / 1000)) = false := by
      simpa using hb
    have hres : a.CanAnnounceTime micros = (false, a) := by
      simp [PipeAudio.CanAnnounceTime, hbf]
    have hb' : a.announced_time = true ∧ micros / 1000000 ≤ a.last_time := by
      rw [← hdiv]
      simpa [Bool.or_eq_false_iff, Bool.not_eq_false', not_lt] using hbf
    rw [hres]
    refine ⟨⟨fun hc => Bool.noConfusion hc, fun hd => ?_⟩,
            fun hc => Bool.noConfusion hc, fun _ => rfl⟩
    exfalso
    rcases hd with hd | hd
    · rw [hb'.1] at hd
      cases hd
    · omega

/-- C4: `Seek(µs)` converts via the source, seeks the source, hands the
achieved sample index to `sink.SetPosition`, and afterwards the frame is
cleared and the announced-time flag reset, so the next `CanAnnounceTime`
returns true. -/
theorem pipeAudio_seek_spec (a : PipeAudio) (s : Sink)
    (sfm seekFn : Nat → Nat) (position : Nat) :
    ((a.Seek s sfm seekFn position).2).position = seekFn (sfm position) ∧
    (a.Seek s sfm seekFn position).2 = s.SetPosition (seekFn (sfm position)) ∧
    ((a.Seek s sfm seekFn position).1).frame = [] ∧
    ((a.Seek s sfm seekFn position).1).frame_iterator = 0 ∧
    ((a.Seek s sfm seekFn position).1).announced_time = false ∧
    ∀ micros,
      (((a.Seek s sfm seekFn position).1).CanAnnounceTime micros).1 = true := by
  refine ⟨rfl, rfl, rfl, rfl, rfl, fun micros => ?_⟩
  simp [PipeAudio.Seek, PipeAudio.ClearFrame, PipeAudio.CanAnnounceTime]

/-- C10: along any sequence of `Update()` and `Seek()` operations from a
freshly constructed `PipeAudio`, whenever an `Update()` reaches the
`TransferFrame()` call, the frame at that point is non-empty and the cursor
is strictly before the end of the frame — so the non-empty-frame
assertion in `TransferFrame` can never fire. -/
theorem transferFrame_precondition_unreachable (lt : Nat) (ops : List PipeOp)
    (o : UpdateOracle)
    (hcall : ¬ (((PipeAudio.init lt).run ops).DecodeIfFrameEmpty o.res).2.FrameFinished) :
    (((PipeAudio.init lt).run ops).DecodeIfFrameEmpty o.res).2.frame ≠ [] ∧
      (((PipeAudio.init lt).run ops).DecodeIfFrameEmpty o.res).2.frame_iterator <
        (((PipeAudio.init lt).run ops).DecodeIfFrameEmpty o.res).2.frame.length := by
  simp only [PipeAudio.FrameFinished, decide_eq_true_eq, not_le] at hcall
  refine ⟨?_, hcall⟩
  intro h
  rw [h] at hcall
  simp at hcall

/-- Witness for C10 at a concrete run: the empty operation sequence and a
decode producing two bytes trigger a transfer whose precondition holds. -/
theorem transferFrame_precondition_unreachable_witness :
    (¬ (((PipeAudio.init 0).run []).DecodeIfFrameEmpty
        (DecodeState.DECODING, [1, 2])).2.FrameFinished) ∧
    ((((PipeAudio.init 0).run []).DecodeIfFrameEmpty
        (DecodeState.DECODING, [1, 2])).2.frame ≠ [] ∧
      (((PipeAudio.init 0).run []).DecodeIfFrameEmpty
        (DecodeState.DECODING, [1, 2])).2.frame_iterator <
        (((PipeAudio.init 0).run []).DecodeIfFrameEmpty
          (DecodeState.DECODING, [1, 2])).2.frame.length) :=
  ⟨by decide,
   transferFrame_precondition_unreachable 0 []
     ⟨(DecodeState.DECODING, [1, 2]), 0⟩ (by decide)⟩

end AudioTheorems

/-- The broadcast-throttled time announcement path of `PipeAudio::Emit`
(audio.cpp:98-105): a unicast always reports the position; a broadcast
reports it only when `CanAnnounceTime(micros)` allows, and
`CanAnnounceTime` is only consulted for broadcasts. -/
def PipeAudio.EmitElapsed (a : PipeAudio) (micros : Nat) (broadcast : Bool) :
    Option Nat × PipeAudio :=
  if broadcast then
    let r := a.CanAnnounceTime micros
    if r.1 then (some micros, r.2) else (none, r.2)
  else (some micros, a)

/-- The sequence of `POS` broadcast values actually emitted when a sequence
of periodic updates observes the positions `µs` in order (no seek or load
intervening, so the throttle state is never reset). -/
def broadcastRun (a : PipeAudio) : List Nat → List Nat
  | [] => []
  | micros :: rest =>
    let r := a.EmitElapsed micros true
    match r.1 with
    | some v => v :: broadcastRun r.2 rest
    | none => broadcastRun r.2 rest

section ThrottleLemmas

/-- Case analysis of `CanAnnounceTime`: either it announces, updating the
throttle record, or it declines, leaving the state untouched. -/
theorem canAnnounceTime_cases (a : PipeAudio) (micros : Nat) :
    (a.CanAnnounceTime micros =
        (true, { a with announced_time := true,
                        last_time := micros / 1000000 }) ∧
      (a.announced_time = false ∨ a.last_time < micros / 1000000)) ∨
    (a.CanAnnounceTime micros = (false, a) ∧
      a.announced_time = true ∧ micros / 1000000 ≤ a.last_time) := by
  have hdiv : micros / 1000 / 1000 = micros / 1000000 := by
    rw [Nat.div_div_eq_div_mul]
  by_cases hb : ((! a.announced_time) ||
      decide (a.last_time < micros / 1000 / 1000)) = true
  · left
    rw [Bool.or_eq_true, Bool.not_eq_true', decide_eq_true_eq, hdiv] at hb
    exact ⟨by simp [PipeAudio.CanAnnounceTime, hdiv, hb], hb⟩
  · right
    have hbf : ((! a.announced_time) ||
        decide (a.last_time < micros / 1000 / 1000)) = false := by
      simpa using hb
    have hb' : a.announced_time = true ∧ micros / 1000000 ≤ a.last_time := by
      rw [← hdiv]
      simpa [Bool.or_eq_false_iff, Bool.not_eq_false', not_lt] using hbf
    exact ⟨by simp [PipeAudio.CanAnnounceTime, hbf], hb'.1, hb'.2⟩

/-- Once an announcement has occurred, the whole-second of every later
broadcast value is at least the recorded last announced whole-second. -/
theorem broadcastRun_bounded (micros_list : List Nat) :
    ∀ a : PipeAudio, a.announced_time = true →
      ∀ v ∈ broadcastRun a micros_list, a.last_time ≤ v / 1000000 := by
  induction micros_list with
  | nil =>
    intro a _ v hv
    simp [broadcastRun] at hv
  | cons micros rest ih =>
    intro a hann v hv
    rcases canAnnounceTime_cases a micros with ⟨heq, hcond⟩ | ⟨heq, _, _⟩
    · have hrw : broadcastRun a (micros :: rest) =
          micros :: broadcastRun
            { a with announced_time := true,
                     last_time := micros / 1000000 } rest := by
        simp [broadcastRun, PipeAudio.EmitElapsed, heq]
      rw [hrw] at hv
      have hlt : a.last_time < micros / 1000000 := by
        rcases hcond with hfalse | hlt
        · rw [hann] at hfalse
          cases hfalse
        · exact hlt
      rcases List.mem_cons.mp hv with rfl | hv'
      · omega
      · have hrec := ih _ rfl v hv'
        simp only at hrec
        omega
    · have hrw : broadcastRun a (micros :: rest) = broadcastRun a rest := by
        simp [broadcastRun, PipeAudio.EmitElapsed, heq]
      rw [hrw] at hv
      exact ih a hann v hv

end ThrottleLemmas

section BroadcastTheorems

/-- C5: with no seek or load (hence no throttle reset) between periodic
updates, the whole-second values of the `POS` broadcasts actually emitted
never decrease between consecutive broadcasts. -/
theorem pos_broadcasts_monotone (a : PipeAudio) (micros_list : List Nat) :
    List.Chain' (fun x y => x / 1000000 ≤ y / 1000000)
      (broadcastRun a micros_list) := by
  induction micros_list generalizing a with
  | nil => simp [broadcastRun]
  | cons micros rest ih =>
    rcases canAnnounceTime_cases a micros with ⟨heq, _⟩ | ⟨heq, _, _⟩
    · have hrw : broadcastRun a (micros :: rest) =
          micros :: broadcastRun
            { a with announced_time := true,
                     last_time := micros / 1000000 } rest := by
        simp [broadcastRun, PipeAudio.EmitElapsed, heq]
      rw [hrw, List.chain'_cons']
      refine ⟨fun y hy => ?_, ih _⟩
      have hymem : y ∈ broadcastRun
          { a with announced_time := true,
                   last_time := micros / 1000000 } rest :=
        List.mem_of_mem_head? hy
      have hrec := broadcastRun_bounded rest _ rfl y hymem
      simpa using hrec
    · have hrw : broadcastRun a (micros :: rest) = broadcastRun a rest := by
        simp [broadcastRun, PipeAudio.EmitElapsed, heq]
      rw [hrw]
      exact ih a

end BroadcastTheorems

/-- Error classes raised by the audio layer (`errors.hpp` declares them; the
§7 taxonomy of the spec maps `NoAudioError` to the NO_FILE class and the ring
buffer construction failure to INTERNAL). -/
inductive ErrorKind
  | NoAudioError
  | InternalError
deriving DecidableEq, Repr

namespace NoAudio

/-- `NoAudio::Update()` (audio.cpp:38-41): reports the none/ejected state
and does nothing else. -/
def Update : AudioState := AudioState.NONE

/-- `NoAudio::SetPlaying` (audio.cpp:56-59): always throws `NoAudioError`,
for either argument. -/
def SetPlaying (_playing : Bool) : Except ErrorKind Unit :=
  Except.error ErrorKind.NoAudioError

/-- `NoAudio::Seek` (audio.cpp:61-64): always throws `NoAudioError`. -/
def Seek (_position : Nat) : Except ErrorKind Unit :=
  Except.error ErrorKind.NoAudioError

/-- `NoAudio::Position` (audio.cpp:66-69): always throws `NoAudioError`. -/
def Position : Except ErrorKind Nat :=
  Except.error ErrorKind.NoAudioError

end NoAudio

/-- C6: on the no-file (`NoAudio` / `NullAudio`) variant, `SetPlaying` with
either argument, `Seek`, and `Position` all fail with the NO_FILE-class
`NoAudioError` (and, being failures, change no state), while `Update`
succeeds and reports the none/ejected state. -/
theorem noAudio_operations_fail :
    (∀ playing : Bool,
      NoAudio.SetPlaying playing = Except.error ErrorKind.NoAudioError) ∧
    (∀ position : Nat,
      NoAudio.Seek position = Except.error ErrorKind.NoAudioError) ∧
    NoAudio.Position = Except.error ErrorKind.NoAudioError ∧
    NoAudio.Update = AudioState.NONE :=
  ⟨fun _ => rfl, fun _ => rfl, rfl, rfl⟩

/-! ## Response packing and the tokeniser (spec §4.6, §4.7, §4.8)

`Response::Pack` / `Response::EscapeArg` (declared in src/src/response.h;
`response.cpp` is not under src/) and the `Tokeniser` (declared via
src/src/io.h; `tokeniser.cpp`/`tokeniser.h` are not under src/) are
modelled from the words of the specification.  Protocol strings are `List Char`. -/

/-- Protocol byte strings. -/
abbrev Str := List Char

/-- The single-quote character. -/
def squote : Char := Char.ofNat 39

/-- `Response::Code` (response.h:47-58). -/
inductive Code
  | OHAI
  | IAMA
  | FLOAD
  | EJECT
  | POS
  | END
  | PLAY
  | STOP
  | ACK
  | LEN
deriving DecidableEq, Repr

/-- The wire names of the response codes (`Response::STRINGS`; spec §6). -/
def Code.wireName : Code → Str
  | Code.OHAI => ['O', 'H', 'A', 'I']
  | Code.IAMA => ['I', 'A', 'M', 'A']
  | Code.FLOAD => ['F', 'L', 'O', 'A', 'D']
  | Code.EJECT => ['E', 'J', 'E', 'C', 'T']
  | Code.POS => ['P', 'O', 'S']
  | Code.END => ['E', 'N', 'D']
  | Code.PLAY => ['P', 'L', 'A', 'Y']
  | Code.STOP => ['S', 'T', 'O', 'P']
  | Code.ACK => ['A', 'C', 'K']
  | Code.LEN => ['L', 'E', 'N']

/-- Modelled from the spec: the characters that force an argument to be
quoted (§4.6: space, tab, carriage return, newline, double quote, single
quote, backslash). -/
def isEscapeTrigger (c : Char) : Bool :=
  c = ' ' || c = '\t' || c = '\r' || c = '\n' || c = '"' || c = squote ||
    c = '\\'

/-- Modelled from the spec: an argument is wrapped in double quotes exactly
when it is empty or contains an escape-triggering character (§4.6). -/
def needsEscape (a : Str) : Bool :=
  a.isEmpty || a.any isEscapeTrigger

/-- Modelled from the spec: inside a quoted argument, `"` becomes `\"` and
`\` becomes `\\`; every other character is kept (§4.6). -/
def escapeChar (c : Char) : Str :=
  if c = '"' then ['\\', '"']
  else if c = '\\' then ['\\', '\\']
  else [c]

/-- Modelled from the spec: `Response::EscapeArg` (declared at
response.h:113; `response.cpp` is not under src/).  Per §4.6: wrap in double
quotes and escape `"` and `\` when needed, otherwise emit verbatim. -/
def EscapeArg (a : Str) : Str :=
  if needsEscape a then '"' :: a.flatMap escapeChar ++ ['"'] else a

/-- Modelled from the spec: `Response::Pack` (declared at response.h:82;
`response.cpp` is not under src/).  Per §4.6: join the tag, the code
wire-name and the escaped arguments with single spaces; no trailing
newline. -/
def Pack (tag : Str) (code : Code) (args : List Str) : Str :=
  tag ++ ' ' :: code.wireName ++ args.flatMap (fun a => ' ' :: EscapeArg a)

/-- Modelled from the spec: the connection writer appends the `\n` framing
at write time (§4.8 write path; cf. `Responder::Respond` in
io/io_response.cpp, which appends the newline when writing). -/
def writeFramed (line : Str) : Str := line ++ ['\n']

/-- Modelled from the spec: tokeniser states (§4.7; `tokeniser.cpp` is not
under src/). -/
inductive QState
  | NORMAL
  | IN_WORD
  | IN_SINGLE
  | IN_DOUBLE
  | ESCAPE_NORMAL
  | ESCAPE_DOUBLE
deriving DecidableEq, Repr

/-- Modelled from the spec: tokeniser state — the quoting state, the word
being accumulated (only meaningful outside `NORMAL`), and the completed
words of the in-flight line (§4.7). -/
structure Tokeniser where
  q : QState
  word : Str
  words : List Str
deriving DecidableEq, Repr

/-- Initial (and after-line) state of the tokeniser. -/
def Tokeniser.initial : Tokeniser := ⟨QState.NORMAL, [], []⟩

/-- Modelled from the spec: one byte of tokeniser input (the transition
rules of §4.7); returns the successor state and the completed line, if this byte
finished one. -/
def Tokeniser.feedChar (t : Tokeniser) (c : Char) :
    Tokeniser × Option (List Str) :=
  match t.q with
  | QState.NORMAL =>
    if c = '\n' then (Tokeniser.initial, some t.words)
    else if c = '\r' then (t, none)
    else if c = ' ' || c = '\t' then (t, none)
    else if c = squote then ({ t with q := QState.IN_SINGLE }, none)
    else if c = '"' then ({ t with q := QState.IN_DOUBLE }, none)
    else if c = '\\' then ({ t with q := QState.ESCAPE_NORMAL }, none)
    else (⟨QState.IN_WORD, t.word ++ [c], t.words⟩, none)
  | QState.IN_WORD =>
    if c = '\n' then (Tokeniser.initial, some (t.words ++ [t.word]))
    else if c = '\r' then (t, none)
    else if c = ' ' || c = '\t' then
      (⟨QState.NORMAL, [], t.words ++ [t.word]⟩, none)
    else if c = squote then ({ t with q := QState.IN_SINGLE }, none)
    else if c = '"' then ({ t with q := QState.IN_DOUBLE }, none)
    else if c = '\\' then ({ t with q := QState.ESCAPE_NORMAL }, none)
    else ({ t with word := t.word ++ [c] }, none)
  | QState.IN_SINGLE =>
    if c = squote then ({ t with q := QState.IN_WORD }, none)
    else ({ t with word := t.word ++ [c] }, none)
  | QState.IN_DOUBLE =>
    if c = '\\' then ({ t with q := QState.ESCAPE_DOUBLE }, none)
    else if c = '"' then ({ t with q := QState.IN_WORD }, none)
    else ({ t with word := t.word ++ [c] }, none)
  | QState.ESCAPE_NORMAL => (⟨QState.IN_WORD, t.word ++ [c], t.words⟩, none)
  | QState.ESCAPE_DOUBLE => (⟨QState.IN_DOUBLE, t.word ++ [c], t.words⟩, none)

/-- Feeding a chunk of bytes: the final tokeniser state and the sequence of
completed lines, in order. -/
def Tokeniser.feed (t : Tokeniser) : List Char → Tokeniser × List (List Str)
  | [] => (t, [])
  | c :: cs =>
    match t.feedChar c with
    | (t', none) => t'.feed cs
    | (t', some line) => ((t'.feed cs).1, line :: (t'.feed cs).2)

section TokeniserLemmas

/-- One `feed` step that does not complete a line. -/
theorem Tokeniser.feed_step_none (t t' : Tokeniser) (c : Char)
    (cs : List Char) (h : t.feedChar c = (t', none)) :
    t.feed (c :: cs) = t'.feed cs := by
  simp [Tokeniser.feed, h]

/-- One `feed` step that completes a line. -/
theorem Tokeniser.feed_step_some (t t' : Tokeniser) (c : Char)
    (cs : List Char) (line : List Str)
    (h : t.feedChar c = (t', some line)) :
    t.feed (c :: cs) = ((t'.feed cs).1, line :: (t'.feed cs).2) := by
  simp [Tokeniser.feed, h]

/-- `feed` distributes over append: states thread through, lines
concatenate. -/
theorem Tokeniser.feed_append (t : Tokeniser) (xs ys : List Char) :
    t.feed (xs ++ ys) =
      (((t.feed xs).1.feed ys).1,
        (t.feed xs).2 ++ ((t.feed xs).1.feed ys).2) := by
  induction xs generalizing t with
  | nil => simp [Tokeniser.feed]
  | cons c cs ih =>
    rcases h : t.feedChar c with ⟨t', lineOpt⟩
    cases lineOpt <;>
      simp [List.cons_append, Tokeniser.feed, h, ih]

/-- A non-triggering character fed in `IN_WORD` is appended to the current
word. -/
theorem Tokeniser.feedChar_inword_ordinary (cur : Str) (ws : List Str)
    (c : Char) (hc : isEscapeTrigger c = false) :
    Tokeniser.feedChar ⟨QState.IN_WORD, cur, ws⟩ c =
      (⟨QState.IN_WORD, cur ++ [c], ws⟩, none) := by
  simp only [isEscapeTrigger, Bool.or_eq_false_iff,
    decide_eq_false_iff_not] at hc
  obtain ⟨⟨⟨⟨⟨⟨h1, h2⟩, h3⟩, h4⟩, h5⟩, h6⟩, h7⟩ := hc
  simp [Tokeniser.feedChar, h1, h2, h3, h4, h5, h6, h7]

/-- A non-triggering character fed in `NORMAL` starts a word. -/
theorem Tokeniser.feedChar_normal_ordinary (cur : Str) (ws : List Str)
    (c : Char) (hc : isEscapeTrigger c = false) :
    Tokeniser.feedChar ⟨QState.NORMAL, cur, ws⟩ c =
      (⟨QState.IN_WORD, cur ++ [c], ws⟩, none) := by
  simp only [isEscapeTrigger, Bool.or_eq_false_iff,
    decide_eq_false_iff_not] at hc
  obtain ⟨⟨⟨⟨⟨⟨h1, h2⟩, h3⟩, h4⟩, h5⟩, h6⟩, h7⟩ := hc
  simp [Tokeniser.feedChar, h1, h2, h3, h4, h5, h6, h7]

/-- Feeding a run of non-triggering characters in `IN_WORD` appends them
all to the current word. -/
theorem Tokeniser.feed_ordinary_inword (w : List Char) :
    ∀ (cur : Str) (ws : List Str),
      (∀ c ∈ w, isEscapeTrigger c = false) →
      Tokeniser.feed ⟨QState.IN_WORD, cur, ws⟩ w =
        (⟨QState.IN_WORD, cur ++ w, ws⟩, []) := by
  induction w with
  | nil =>
    intro cur ws _
    simp [Tokeniser.feed]
  | cons c cs ih =>
    intro cur ws h
    have hc := h c (List.mem_cons_self c cs)
    rw [Tokeniser.feed_step_none _ _ _ _
      (Tokeniser.feedChar_inword_ordinary cur ws c hc)]
    rw [ih (cur ++ [c]) ws (fun d hd => h d (List.mem_cons_of_mem c hd))]
    simp

/-- Feeding the escaped body of an argument inside double quotes appends
exactly the original argument to the current word. -/
theorem Tokeniser.feed_escaped_indouble (a : Str) :
    ∀ (cur : Str) (ws : List Str),
      Tokeniser.feed ⟨QState.IN_DOUBLE, cur, ws⟩ (a.flatMap escapeChar) =
        (⟨QState.IN_DOUBLE, cur ++ a, ws⟩, []) := by
  induction a with
  | nil =>
    intro cur ws
    simp [Tokeniser.feed]
  | cons c cs ih =>
    intro cur ws
    rw [List.flatMap_cons]
    by_cases h1 : c = '"'
    · subst h1
      rw [show escapeChar '"' = ['\\', '"'] from rfl]
      rw [show (['\\', '"'] : List Char) ++ cs.flatMap escapeChar =
        '\\' :: '"' :: cs.flatMap escapeChar from rfl]
      rw [Tokeniser.feed_step_none _ _ _ _
        (show Tokeniser.feedChar ⟨QState.IN_DOUBLE, cur, ws⟩ '\\' =
          (⟨QState.ESCAPE_DOUBLE, cur, ws⟩, none) from rfl)]
      rw [Tokeniser.feed_step_none _ _ _ _
        (show Tokeniser.feedChar ⟨QState.ESCAPE_DOUBLE, cur, ws⟩ '"' =
          (⟨QState.IN_DOUBLE, cur ++ ['"'], ws⟩, none) from rfl)]
      rw [ih (cur ++ ['"']) ws]
      simp
    · by_cases h2 : c = '\\'
      · subst h2
        rw [show escapeChar '\\' = ['\\', '\\'] from rfl]
        rw [show (['\\', '\\'] : List Char) ++ cs.flatMap escapeChar =
          '\\' :: '\\' :: cs.flatMap escapeChar from rfl]
        rw [Tokeniser.feed_step_none _ _ _ _
          (show Tokeniser.feedChar ⟨QState.IN_DOUBLE, cur, ws⟩ '\\' =
            (⟨QState.ESCAPE_DOUBLE, cur, ws⟩, none) from rfl)]
        rw [Tokeniser.feed_step_none _ _ _ _
          (show Tokeniser.feedChar ⟨QState.ESCAPE_DOUBLE, cur, ws⟩ '\\' =
            (⟨QState.IN_DOUBLE, cur ++ ['\\'], ws⟩, none) from rfl)]
        rw [ih (cur ++ ['\\']) ws]
        simp
      · rw [show escapeChar c = [c] by simp [escapeChar, h1, h2]]
        rw [List.singleton_append]
        rw [Tokeniser.feed_step_none _ _ _ _
          (show Tokeniser.feedChar ⟨QState.IN_DOUBLE, cur, ws⟩ c =
            (⟨QState.IN_DOUBLE, cur ++ [c], ws⟩, none) by
              simp [Tokeniser.feedChar, h1, h2])]
        rw [ih (cur ++ [c]) ws]
        simp

/-- Feeding one escaped argument from `NORMAL` ends in `IN_WORD` holding
exactly the original argument. -/
theorem Tokeniser.feed_escapeArg_normal (a : Str) (ws : List Str) :
    Tokeniser.feed ⟨QState.NORMAL, [], ws⟩ (EscapeArg a) =
      (⟨QState.IN_WORD, a, ws⟩, []) := by
  by_cases h : needsEscape a = true
  · rw [EscapeArg, if_pos h, List.cons_append]
    rw [Tokeniser.feed_step_none _ _ _ _
      (show Tokeniser.feedChar ⟨QState.NORMAL, [], ws⟩ '"' =
        (⟨QState.IN_DOUBLE, [], ws⟩, none) from rfl)]
    rw [Tokeniser.feed_append, Tokeniser.feed_escaped_indouble]
    rw [Tokeniser.feed_step_none _ _ _ _
      (show Tokeniser.feedChar ⟨QState.IN_DOUBLE, [] ++ a, ws⟩ '"' =
        (⟨QState.IN_WORD, [] ++ a, ws⟩, none) from rfl)]
    simp [Tokeniser.feed]
  · have h' : needsEscape a = false := by
      simpa using h
    rw [EscapeArg, if_neg (by simp [h'])]
    have hne : a ≠ [] := by
      intro hnil
      rw [hnil] at h'
      simp [needsEscape] at h'
    have hall : ∀ c ∈ a, isEscapeTrigger c = false := by
      intro c hc
      have hany : a.any isEscapeTrigger = false := by
        rw [needsEscape, Bool.or_eq_false_iff] at h'
        exact h'.2
      simpa using List.any_eq_false.mp hany c hc
    rcases a with _ | ⟨c, cs⟩
    · exact absurd rfl hne
    · rw [Tokeniser.feed_step_none _ _ _ _
        (Tokeniser.feedChar_normal_ordinary [] ws c
          (hall c (List.mem_cons_self c cs)))]
      rw [Tokeniser.feed_ordinary_inword cs ([] ++ [c]) ws
        (fun d hd => hall d (List.mem_cons_of_mem c hd))]
      simp

/-- Composition of two known feeds across an append. -/
theorem Tokeniser.feed_append_known (t t1 t2 : Tokeniser) (xs ys : List Char)
    (l1 l2 : List (List Str)) (h1 : t.feed xs = (t1, l1))
    (h2 : t1.feed ys = (t2, l2)) :
    t.feed (xs ++ ys) = (t2, l1 ++ l2) := by
  rw [Tokeniser.feed_append, h1]
  simp [h2]

/-- A non-quoted argument has no escape triggers and is nonempty. -/
theorem not_needsEscape_all (a : Str) (h : needsEscape a = false) :
    a ≠ [] ∧ ∀ c ∈ a, isEscapeTrigger c = false := by
  constructor
  · intro hnil
    rw [hnil] at h
    exact absurd h (by decide)
  · intro c hc
    have hany : a.any isEscapeTrigger = false := by
      rw [needsEscape, Bool.or_eq_false_iff] at h
      exact h.2
    simpa using List.any_eq_false.mp hany c hc

/-- Feeding the space-separated escaped arguments and the final newline from
`IN_WORD` completes exactly one line carrying the previous words, the
current word, and the arguments. -/
theorem Tokeniser.feed_args_newline (args : List Str) :
    ∀ (cur : Str) (ws : List Str),
      Tokeniser.feed ⟨QState.IN_WORD, cur, ws⟩
        ((args.flatMap fun a => ' ' :: EscapeArg a) ++ ['\n']) =
      (Tokeniser.initial, [ws ++ cur :: args]) := by
  induction args with
  | nil =>
    intro cur ws
    rw [List.flatMap_nil, List.nil_append]
    rw [Tokeniser.feed_step_some _ _ _ _ _
      (show Tokeniser.feedChar ⟨QState.IN_WORD, cur, ws⟩ '\n' =
        (Tokeniser.initial, some (ws ++ [cur])) from rfl)]
    simp [Tokeniser.feed]
  | cons a rest ih =>
    intro cur ws
    rw [List.flatMap_cons, List.cons_append, List.cons_append,
      List.append_assoc]
    rw [Tokeniser.feed_step_none _ _ _ _
      (show Tokeniser.feedChar ⟨QState.IN_WORD, cur, ws⟩ ' ' =
        (⟨QState.NORMAL, [], ws ++ [cur]⟩, none) from rfl)]
    rw [Tokeniser.feed_append, Tokeniser.feed_escapeArg_normal]
    simp [ih]

/-- The wire name of each response code is a well-formed bare token. -/
theorem wireName_token (code : Code) : needsEscape code.wireName = false := by
  cases code <;> decide

end TokeniserLemmas

section ResponseTheorems

/-- C7 counterexample for the claim as stated over *every* tag: a tag
containing a space (here `" "`) is joined into the line unescaped, so
parsing the packed line back does not recover it. -/
theorem response_pack_roundtrip_tag_counterexample :
    ¬ (Tokeniser.initial.feed (Pack [' '] Code.OHAI [] ++ ['\n']) =
        (Tokeniser.initial,
          [[' '] :: Code.wireName Code.OHAI :: ([] : List Str)])) := by
  decide

/-- C7 (amended: the tag must be a bare token, i.e. nonempty with no
whitespace, quote, or backslash characters): packing a response and parsing
the packed line back through the tokeniser recovers exactly the original
tag, code wire-name, and arguments — and `Pack` quotes an argument exactly
when it is empty or contains whitespace, a quote character, or a
backslash. -/
theorem response_pack_roundtrip (tag : Str) (code : Code) (args : List Str)
    (htag : needsEscape tag = false) :
    Tokeniser.initial.feed (Pack tag code args ++ ['\n']) =
      (Tokeniser.initial, [tag :: code.wireName :: args]) ∧
    (∀ a : Str,
      (needsEscape a = true ∧
        EscapeArg a = '"' :: a.flatMap escapeChar ++ ['"'] ∧
        (a = [] ∨ ∃ c ∈ a, isEscapeTrigger c = true)) ∨
      (needsEscape a = false ∧ EscapeArg a = a ∧ a ≠ [] ∧
        ∀ c ∈ a, isEscapeTrigger c = false)) := by
  constructor
  · have hpack : Pack tag code args ++ ['\n'] =
        tag ++ ([' '] ++ (code.wireName ++
          ((args.flatMap fun a => ' ' :: EscapeArg a) ++ ['\n']))) := by
      simp [Pack]
    have htagfeed : Tokeniser.initial.feed tag =
        (⟨QState.IN_WORD, tag, []⟩, []) := by
      have h := Tokeniser.feed_escapeArg_normal tag []
      rwa [EscapeArg, if_neg (by simp [htag])] at h
    have hwire : Tokeniser.feed ⟨QState.NORMAL, [], [tag]⟩ code.wireName =
        (⟨QState.IN_WORD, code.wireName, [tag]⟩, []) := by
      have h := Tokeniser.feed_escapeArg_normal code.wireName [tag]
      rwa [EscapeArg, if_neg (by simp [wireName_token])] at h
    have s1 : Tokeniser.feed ⟨QState.IN_WORD, tag, []⟩ [' '] =
        (⟨QState.NORMAL, [], [tag]⟩, []) := rfl
    have s2 := Tokeniser.feed_args_newline args code.wireName [tag]
    have s3 := Tokeniser.feed_append_known _ _ _ _ _ _ _ hwire s2
    have s4 := Tokeniser.feed_append_known _ _ _ _ _ _ _ s1 s3
    have s5 := Tokeniser.feed_append_known _ _ _ _ _ _ _ htagfeed s4
    rw [hpack, s5]
    simp
  · intro a
    by_cases h : needsEscape a = true
    · left
      refine ⟨h, by rw [EscapeArg, if_pos h], ?_⟩
      have h' : a.isEmpty = true ∨ a.any isEscapeTrigger = true := by
        rw [needsEscape, Bool.or_eq_true] at h
        exact h
      rcases h' with he | hany
      · left
        simpa using he
      · right
        exact List.any_eq_true.mp hany
    · right
      have h' : needsEscape a = false := by
        simpa using h
      obtain ⟨hne, hall⟩ := not_needsEscape_all a h'
      exact ⟨h', by rw [EscapeArg, if_neg (by simp [h'])], hne, hall⟩

/-- Witness for C7 at a concrete instance: a bare-token tag, the `FLOAD`
code, and arguments including one with a space and one empty. -/
theorem response_pack_roundtrip_witness :
    needsEscape ['x', '1'] = false ∧
    (Tokeniser.initial.feed
        (Pack ['x', '1'] Code.FLOAD [['a', ' ', 'b'], []] ++ ['\n']) =
      (Tokeniser.initial,
        [['x', '1'] :: Code.wireName Code.FLOAD :: [['a', ' ', 'b'], []]]) ∧
    (∀ a : Str,
      (needsEscape a = true ∧
        EscapeArg a = '"' :: a.flatMap escapeChar ++ ['"'] ∧
        (a = [] ∨ ∃ c ∈ a, isEscapeTrigger c = true)) ∨
      (needsEscape a = false ∧ EscapeArg a = a ∧ a ≠ [] ∧
        ∀ c ∈ a, isEscapeTrigger c = false))) :=
  ⟨by decide,
   response_pack_roundtrip ['x', '1'] Code.FLOAD [['a', ' ', 'b'], []]
     (by decide)⟩

/-- `EscapeArg` never yields the empty string. -/
theorem escapeArg_ne_nil (a : Str) : EscapeArg a ≠ [] := by
  rw [EscapeArg]
  by_cases h : needsEscape a = true
  · rw [if_pos h]
    simp
  · rw [if_neg h]
    exact (not_needsEscape_all a (by simpa using h)).1

/-- `EscapeArg` never ends in a newline. -/
theorem escapeArg_getLast_ne_nl (a : Str) :
    (EscapeArg a).getLast? ≠ some '\n' := by
  rw [EscapeArg]
  by_cases h : needsEscape a = true
  · rw [if_pos h]
    rw [show ('"' :: a.flatMap escapeChar ++ ['"'] : Str) =
      ('"' :: a.flatMap escapeChar) ++ ['"'] from rfl]
    rw [List.getLast?_concat]
    decide
  · rw [if_neg h]
    intro hlast
    have hmem : '\n' ∈ a := List.mem_of_mem_getLast? hlast
    have hok := (not_needsEscape_all a (by simpa using h)).2 '\n' hmem
    exact absurd hok (by decide)

/-- Appending the escaped-argument tail never introduces a trailing
newline. -/
theorem packArgs_getLast_ne_nl (args : List Str) :
    ∀ base : Str, base ≠ [] → base.getLast? ≠ some '\n' →
      (base ++ args.flatMap fun a => ' ' :: EscapeArg a).getLast? ≠
        some '\n' := by
  induction args with
  | nil =>
    intro base _ h2
    simpa using h2
  | cons a rest ih =>
    intro base hb h2
    rw [List.flatMap_cons, ← List.append_assoc]
    apply ih
    · simp
    · obtain ⟨v, hv⟩ : ∃ v, (EscapeArg a).getLast? = some v := by
        cases hE : (EscapeArg a).getLast? with
        | none =>
          exact absurd (List.getLast?_eq_none_iff.mp hE) (escapeArg_ne_nil a)
        | some v => exact ⟨v, rfl⟩
      have hv' : v ≠ '\n' := by
        intro hveq
        rw [hveq] at hv
        exact escapeArg_getLast_ne_nl a hv
      rw [show base ++ ' ' :: EscapeArg a =
        (base ++ [' ']) ++ EscapeArg a by simp]
      rw [List.getLast?_append, hv]
      simp [hv']

/-- The wire name of every code is nonempty and does not end in a
newline. -/
theorem wireName_getLast_ne_nl (code : Code) :
    code.wireName ≠ [] ∧ code.wireName.getLast? ≠ some '\n' := by
  cases code <;> exact ⟨by decide, by decide⟩

/-- C8: the serialised form produced by `Pack` never carries a trailing
newline; the `\n` framing appears only in the framed output of the connection
writer, whose last byte is the newline and whose remainder is exactly the
packed form. -/
theorem pack_no_trailing_newline (tag : Str) (code : Code)
    (args : List Str) :
    (Pack tag code args).getLast? ≠ some '\n' ∧
    (writeFramed (Pack tag code args)).getLast? = some '\n' ∧
    (writeFramed (Pack tag code args)).dropLast = Pack tag code args := by
  refine ⟨?_, ?_, ?_⟩
  · rw [Pack]
    apply packArgs_getLast_ne_nl
    · simp
    · obtain ⟨hwne, hwnl⟩ := wireName_getLast_ne_nl code
      obtain ⟨v, hv⟩ : ∃ v, code.wireName.getLast? = some v := by
        cases hE : code.wireName.getLast? with
        | none => exact absurd (List.getLast?_eq_none_iff.mp hE) hwne
        | some v => exact ⟨v, rfl⟩
      have hv' : v ≠ '\n' := by
        intro hveq
        rw [hveq] at hv
        exact hwnl hv
      rw [show tag ++ ' ' :: code.wireName =
        (tag ++ [' ']) ++ code.wireName by simp]
      rw [List.getLast?_append, hv]
      simp [hv']
  · rw [writeFramed, List.getLast?_concat]
  · rw [writeFramed, List.dropLast_concat]

end ResponseTheorems

/-! ## Ring buffer (src/ringbuffer.hpp; spec §4.1)

`PaRingBuffer` wraps the PortAudio ring buffer; `contrib/pa_ringbuffer` is
not under src/, so the underlying ring semantics are modelled from the
contract in the spec (§3/§4.1): a bounded FIFO of `2^P` elements whose `write`
and `read` move at most the available capacity and never fail. -/

/-- Modelled from the spec: the PortAudio ring buffer state
(`PaUtilRingBuffer`; `contrib/pa_ringbuffer` is not under src/), viewed
functionally as its element capacity and queued contents. -/
structure PaUtilRingBuffer where
  bufferSize : Nat
  buffer : List Nat
deriving DecidableEq, Repr

/-- Modelled from the spec: `PaUtil_GetRingBufferWriteAvailable` — the
number of elements that can be written now (§4.1). -/
def PaUtil_GetRingBufferWriteAvailable (rb : PaUtilRingBuffer) : Nat :=
  rb.bufferSize - rb.buffer.length

/-- Modelled from the spec: `PaUtil_GetRingBufferReadAvailable` — the
number of elements that can be read now (§4.1). -/
def PaUtil_GetRingBufferReadAvailable (rb : PaUtilRingBuffer) : Nat :=
  rb.buffer.length

/-- Modelled from the spec: `PaUtil_WriteRingBuffer` — copies up to `count`
elements of `data`, returning the count actually written; a short count,
never an error (§4.1). -/
def PaUtil_WriteRingBuffer (rb : PaUtilRingBuffer) (data : List Nat)
    (count : Nat) : Nat × PaUtilRingBuffer :=
  let written := min count (PaUtil_GetRingBufferWriteAvailable rb)
  (written, { rb with buffer := rb.buffer ++ data.take written })

/-- Modelled from the spec: `PaUtil_ReadRingBuffer` — consumes up to
`count` elements, returning the count actually read together with the
elements; a short count, never an error (§4.1). -/
def PaUtil_ReadRingBuffer (rb : PaUtilRingBuffer) (count : Nat) :
    Nat × List Nat × PaUtilRingBuffer :=
  let consumed := min count (PaUtil_GetRingBufferReadAvailable rb)
  (consumed, rb.buffer.take consumed,
    { rb with buffer := rb.buffer.drop consumed })

/-- Modelled from the spec: `PaUtil_FlushRingBuffer` — resets the ring to
empty (§4.1). -/
def PaUtil_FlushRingBuffer (rb : PaUtilRingBuffer) : PaUtilRingBuffer :=
  { rb with buffer := [] }

/-- The `PaRingBuffer` constructor (ringbuffer.hpp:22-34): the capacity is
fixed at `2^P` elements and an `INTERNAL`-class error is thrown exactly
when the underlying initialisation/allocation fails; that outcome is the
environment oracle `initFails`. -/
def PaRingBuffer.construct (P : Nat) (initFails : Bool) :
    Except ErrorKind PaUtilRingBuffer :=
  if initFails then Except.error ErrorKind.InternalError
  else Except.ok ⟨2 ^ P, []⟩

section RingBufferTheorems

/-- C9: construction fails with an INTERNAL-class error exactly when
initialisation/allocation fails (otherwise yielding the `2^P`-element
ring), and the write and read operations never fail: they return short
counts bounded by the requested count and by the current write/read
capacity respectively. -/
theorem ringbuffer_construct_and_short_counts (P : Nat) :
    PaRingBuffer.construct P true = Except.error ErrorKind.InternalError ∧
    PaRingBuffer.construct P false = Except.ok ⟨2 ^ P, []⟩ ∧
    (∀ (rb : PaUtilRingBuffer) (data : List Nat) (count : Nat),
      (PaUtil_WriteRingBuffer rb data count).1 ≤
          PaUtil_GetRingBufferWriteAvailable rb ∧
        (PaUtil_WriteRingBuffer rb data count).1 ≤ count) ∧
    (∀ (rb : PaUtilRingBuffer) (count : Nat),
      (PaUtil_ReadRingBuffer rb count).1 ≤
          PaUtil_GetRingBufferReadAvailable rb ∧
        (PaUtil_ReadRingBuffer rb count).1 ≤ count) := by
  refine ⟨rfl, rfl, fun rb data count => ⟨?_, ?_⟩, fun rb count => ⟨?_, ?_⟩⟩
  · exact Nat.min_le_right _ _
  · exact Nat.min_le_left _ _
  · exact Nat.min_le_right _ _
  · exact Nat.min_le_left _ _

end RingBufferTheorems

end Playd
